import Mathlib

/-!
Shallow embedding of the sharded block buffer cache in `kernel/bio.c`
(xv6 lock lab solution): `binit`/`bget`/`bread`/`bwrite`/`brelse`/
`bpin`/`bunpin` over 13 hash buckets, with the ring-distance predicate
`can_lock` that restricts which extra bucket locks the eviction scan in
`bget` may take.

The embedding is sequential: one call runs to completion, the spinlock
set held by the scanner is tracked explicitly as a list so that claims
about how many bucket locks are held at once can be stated.  `uint`
fields (`refcnt`, `time`) are natural numbers reduced mod 2^32 wherever
the C code can overflow them.
-/

/-- The constant `NBUCKET` from bio.c. -/
def NBUCKET : Nat := 13

/-- Number of buffers (`NBUF` = `MAXOPBLOCKS*3` = 30 in xv6 param.h). -/
def NBUF : Nat := 30

/-- The modulus 2^32 of C `uint` arithmetic. -/
def U32 : Nat := 4294967296

/-- The constant `0xffffffff`, initial value of `min_tick` in `bget`. -/
def UINT32_MAX : Nat := 4294967295

/-- One `struct buf`: identity, validity, reference count, idle tick,
sleep-lock state and payload.  The chain link (`next`) is represented by
position in the bucket's list. -/
structure Buf where
  dev : Nat
  blockno : Nat
  valid : Bool
  refcnt : Nat
  time : Nat
  lockHeld : Bool
  data : List Nat
deriving Repr, DecidableEq, Inhabited

/-- The predicate `can_lock(cur_idx, req_idx)` from bio.c, line for line:
non-reentrant, and only a forward cyclic distance greater than
`NBUCKET/2` is legal. -/
def can_lock (cur_idx req_idx : Nat) : Nat :=
  let mid := NBUCKET / 2
  if cur_idx = req_idx then 0
  else if cur_idx < req_idx then
    if req_idx ≤ cur_idx + mid then 0 else 1
  else
    if req_idx + mid ≤ cur_idx then 0 else 1

/-- Forward cyclic distance from shard `c` to shard `r` on the ring of
`NBUCKET` shards. -/
def fwdDist (c r : Nat) : Nat := (r + NBUCKET - c) % NBUCKET

/-- The fast path of `bget`: scan one bucket chain for `(dev, blockno)`;
on a hit, increment `refcnt` (uint arithmetic) and take the sleep lock.
Returns the updated chain and the hit position. -/
def hitChain (dev blockno : Nat) : List Buf → Option (List Buf × Nat)
  | [] => none
  | b :: rest =>
    if b.dev = dev ∧ b.blockno = blockno then
      some ({ b with refcnt := (b.refcnt + 1) % U32, lockHeld := true } :: rest, 0)
    else
      match hitChain dev blockno rest with
      | some (rest2, p) => some (b :: rest2, p + 1)
      | none => none

/-- State of the eviction scan in `bget`: the donor candidate `idx`
(C `index`, `none` for `-1`), the candidate's tick `minTick`
(C `min_tick`), the bucket spinlocks currently held, and the largest
number of bucket locks held simultaneously so far. -/
structure ScanSt where
  idx : Option Nat
  minTick : Nat
  locks : List Nat
  maxHeld : Nat
deriving Repr, DecidableEq

/-- One step of the inner scan loop of `bget` at bucket `j`: a buffer
with `refcnt == 0` and `time < min_tick` becomes the new candidate; the
superseded candidate's bucket lock is released (the C code checks
`index != -1 && index != j && holding(...)`). -/
def scanStepBuf (j : Nat) (b : Buf) (s : ScanSt) : ScanSt :=
  if b.refcnt = 0 ∧ b.time < s.minTick then
    { s with
      minTick := b.time
      locks :=
        match s.idx with
        | some i => if i ≠ j ∧ i ∈ s.locks then s.locks.erase i else s.locks
        | none => s.locks
      idx := some j }
  else s

/-- The inner `while(b)` walk of bucket `j`'s chain during the eviction
scan. -/
def scanChain (j : Nat) : List Buf → ScanSt → ScanSt
  | [], s => s
  | b :: rest, s => scanChain j rest (scanStepBuf j b s)

/-- Model of `acquire(&bcache.lock[j])` at the top of a scan iteration: the lock
set grows by `j`, and the high-water mark of simultaneously held bucket
locks is updated. -/
def scanShardAcquire (s : ScanSt) (j : Nat) : ScanSt :=
  { s with locks := j :: s.locks, maxHeld := max s.maxHeld (j :: s.locks).length }

/-- The conditional `release(&bcache.lock[j])` at the bottom of a scan
iteration: release unless `j` is the current candidate (the C code
checks `j != index && holding(&bcache.lock[j])`). -/
def scanShardRelease (j : Nat) (s2 : ScanSt) : ScanSt :=
  if s2.idx ≠ some j ∧ j ∈ s2.locks then { s2 with locks := s2.locks.erase j } else s2

/-- One iteration of the outer `for (j = 0; j < NBUCKET; j++)` loop of
the eviction scan: skip `j` unless `can_lock(bucket_id, j)`, otherwise
acquire `lock[j]`, walk the chain, and release `lock[j]` afterwards
unless `j` is the current candidate. -/
def scanShard (bucket_id : Nat) (buckets : List (List Buf)) (s : ScanSt) (j : Nat) :
    ScanSt :=
  if can_lock bucket_id j = 0 then s
  else scanShardRelease j (scanChain j (buckets.getD j []) (scanShardAcquire s j))

/-- Scan state on entry to the eviction scan: no candidate,
`min_tick = 0xffffffff`, and the target bucket's lock (taken at the top
of `bget`) still held. -/
def scanInit (bucket_id : Nat) : ScanSt :=
  { idx := none, minTick := UINT32_MAX, locks := [bucket_id], maxHeld := 1 }

/-- The whole eviction scan of `bget` (bio.c lines 102–128). -/
def scanBuckets (bucket_id : Nat) (buckets : List (List Buf)) : ScanSt :=
  (List.range NBUCKET).foldl (scanShard bucket_id buckets) (scanInit bucket_id)

/-- The victim buffer after `bget` re-identifies it: new identity,
invalidated payload, `refcnt = 1`, sleep lock taken. -/
def vmoved (v : Buf) (dev blockno : Nat) : Buf :=
  { v with dev := dev, blockno := blockno, valid := false, refcnt := 1, lockHeld := true }

/-- The move phase of `bget` (bio.c lines 134–150): find the first
buffer in the donor chain with `refcnt == 0 && time == min_tick`,
re-identify it and unlink it.  Returns the shortened donor chain and the
re-identified buffer; `none` models the null-pointer crash of
`move->next = 0` when no buffer matches. -/
def movePhase (dev blockno minTick : Nat) : List Buf → Option (List Buf × Buf)
  | [] => none
  | b :: rest =>
    if b.refcnt = 0 ∧ b.time = minTick then
      some (rest, vmoved b dev blockno)
    else
      match movePhase dev blockno minTick rest with
      | some (rest2, m) => some (b :: rest2, m)
      | none => none

/-- The function `bget(dev, blockno)` on a cache of bucket chains.  Returns the
updated bucket table together with the bucket index and chain position
of the returned (locked) buffer; `none` models `panic("bget: no
buffers")` (and the unreachable null dereference of the move phase). -/
def bget (dev blockno : Nat) (buckets : List (List Buf)) :
    Option (List (List Buf) × Nat × Nat) :=
  let bucket_id := blockno % NBUCKET
  match hitChain dev blockno (buckets.getD bucket_id []) with
  | some (c, p) => some (buckets.set bucket_id c, bucket_id, p)
  | none =>
    let s := scanBuckets bucket_id buckets
    match s.idx with
    | none => none
    | some index =>
      match movePhase dev blockno s.minTick (buckets.getD index []) with
      | none => none
      | some (donor, m) =>
        let bk1 := buckets.set index donor
        some (bk1.set bucket_id ((bk1.getD bucket_id []) ++ [m]), bucket_id,
          (bk1.getD bucket_id []).length)

/-- The buffer `bget` returns, read off at the returned position. -/
def bgetBuf (dev blockno : Nat) (buckets : List (List Buf)) : Option Buf :=
  (bget dev blockno buckets).map fun r => (r.1.getD r.2.1 []).getD r.2.2 default

/-- The disk, as the log of completed writes (most recent first). -/
def Disk : Type := List ((Nat × Nat) × List Nat)

/-- Synchronous device read (`virtio_disk_rw(b, 0)`). -/
def diskRead (disk : Disk) (dev blockno : Nat) : List Nat :=
  match List.find? (fun e => decide (e.1 = (dev, blockno))) disk with
  | some e => e.2
  | none => []

/-- Synchronous device write (`virtio_disk_rw(b, 1)`). -/
def diskWrite (disk : Disk) (dev blockno : Nat) (v : List Nat) : Disk :=
  ((dev, blockno), v) :: disk

/-- The effect of `virtio_disk_rw(b, 0); b->valid = 1` on the buffer
returned by `bget`: fill the payload from the device and mark valid. -/
def breadFill (disk : Disk) (b : Buf) : Buf :=
  { b with data := diskRead disk b.dev b.blockno, valid := true }

/-- The function `bread(dev, blockno)`: `bget`, then a device read if and only if the
returned buffer is invalid.  The third component logs the device reads
performed. -/
def bread (dev blockno : Nat) (disk : Disk) (buckets : List (List Buf)) :
    Option (List (List Buf) × Buf × List (Nat × Nat)) :=
  match bget dev blockno buckets with
  | none => none
  | some (bk, sh, p) =>
    if ((bk.getD sh []).getD p default).valid = false then
      some (bk.set sh ((bk.getD sh []).set p
          (breadFill disk ((bk.getD sh []).getD p default))),
        breadFill disk ((bk.getD sh []).getD p default),
        [(((bk.getD sh []).getD p default).dev, ((bk.getD sh []).getD p default).blockno)])
    else
      some (bk, (bk.getD sh []).getD p default, [])

/-- The function `bwrite(b)`: panic (`none`) unless the sleep lock is held, otherwise
a synchronous device write of the current payload; the buffer itself is
untouched. -/
def bwrite (disk : Disk) (b : Buf) : Option (Disk × Buf) :=
  if b.lockHeld = false then none
  else some (diskWrite disk b.dev b.blockno b.data, b)

/-- The function `brelse(b)` at logical time `ticks`: panic (`none`) unless the sleep
lock is held; otherwise drop the sleep lock, decrement `refcnt` (uint
arithmetic), and stamp `time := ticks` when the count reaches zero. -/
def brelse (ticks : Nat) (b : Buf) : Option Buf :=
  if b.lockHeld = false then none
  else
    if (b.refcnt + (U32 - 1)) % U32 = 0 then
      some { b with lockHeld := false, refcnt := (b.refcnt + (U32 - 1)) % U32,
                    time := ticks }
    else
      some { b with lockHeld := false, refcnt := (b.refcnt + (U32 - 1)) % U32 }

/-- The function `bpin(b)`: increment `refcnt` under the bucket lock. -/
def bpin (b : Buf) : Buf := { b with refcnt := (b.refcnt + 1) % U32 }

/-- The function `bunpin(b)`: decrement `refcnt` under the bucket lock — with no
check that it is positive. -/
def bunpin (b : Buf) : Buf := { b with refcnt := (b.refcnt + (U32 - 1)) % U32 }

/-- Idle ticks of the unreferenced (`refcnt == 0`) buffers of a chain,
in chain order: exactly the values the eviction scan compares. -/
def chainIdleTimes (c : List Buf) : List Nat :=
  (c.filter fun b => decide (b.refcnt = 0)).map Buf.time

/-- The shards the eviction scan for target shard `bucket_id` actually
visits: those `j` with `can_lock bucket_id j ≠ 0`. -/
def allowedShards (bucket_id : Nat) : List Nat :=
  (List.range NBUCKET).filter fun j => decide (¬ can_lock bucket_id j = 0)

/-- Idle ticks of every unreferenced buffer the eviction scan for target
shard `bucket_id` can see. -/
def eligibleTimes (bucket_id : Nat) (buckets : List (List Buf)) : List Nat :=
  (allowedShards bucket_id).flatMap fun j => chainIdleTimes (buckets.getD j [])

/-- Invariant of the eviction scan: once a candidate shard is recorded,
that shard is reachable under `can_lock`, in range, and holds a buffer
with `refcnt == 0` whose idle tick equals the running minimum. -/
def scanOk (bid : Nat) (bk : List (List Buf)) (s : ScanSt) : Prop :=
  s.idx = none ∨ ∃ i, s.idx = some i ∧ ¬ can_lock bid i = 0 ∧ i < NBUCKET ∧
    ∃ b ∈ bk.getD i [], b.refcnt = 0 ∧ b.time = s.minTick
/-- Invariant between iterations of the eviction scan: the scanner holds
the target shard's lock plus, when a candidate is recorded, the
candidate shard's lock; the candidate is not among the shards still to
be scanned. -/
def boundaryInv (bid : Nat) (l : List Nat) (s : ScanSt) : Prop :=
  (s.idx = none ∧ s.locks = [bid]) ∨
  (∃ i, s.idx = some i ∧ s.locks = [i, bid] ∧ ¬ i = bid ∧ i ∉ l)
/-- Invariant while walking shard `j`'s chain with incoming candidate
`i0`: the lock set is target + cursor, or target + cursor + incoming
candidate, or target + cursor where the cursor is itself the new
candidate. -/
def midInv (bid j : Nat) (i0 : Option Nat) (s : ScanSt) : Prop :=
  (s.idx = i0 ∧ ((i0 = none ∧ s.locks = [j, bid]) ∨
    (∃ i, i0 = some i ∧ s.locks = [j, i, bid]))) ∨
  (s.idx = some j ∧ s.locks = [j, bid])
/-! ### Concrete cache states used to settle the LRU-scope claims -/

/-- An unlocked buffer with the given identity, validity, reference
count and idle tick. -/
def mkBuf (dev blockno : Nat) (valid : Bool) (refcnt time : Nat) : Buf :=
  { dev := dev, blockno := blockno, valid := valid, refcnt := refcnt, time := time,
    lockHeld := false, data := [] }

/-- A cache whose only unreferenced buffers sit in shard 1 (idle tick 0)
and shard 7 (idle tick 5); every other chain is empty. -/
def cexBuckets1 : List (List Buf) :=
  ((List.replicate NBUCKET ([] : List Buf)).set 1 [mkBuf 1 1 true 0 0]).set 7
    [mkBuf 1 7 true 0 5]

/-- A cache whose only unreferenced buffer sits in shard 1; every other
chain is empty. -/
def cexBuckets2 : List (List Buf) :=
  (List.replicate NBUCKET ([] : List Buf)).set 1 [mkBuf 1 1 true 0 0]

/-- C3: `can_lock` is irreflexive; it answers 1 only when the forward
cyclic distance from `c` to `r` exceeds `NBUCKET/2`; and no two shards
are mutually reachable, so the lock-order relation has no 2-cycles. -/
theorem can_lock_ring_rule :
    (∀ c, c < NBUCKET → can_lock c c = 0) ∧
    (∀ c, c < NBUCKET → ∀ r, r < NBUCKET → can_lock c r = 1 → NBUCKET / 2 < fwdDist c r) ∧
    (∀ i, i < NBUCKET → ∀ j, j < NBUCKET → ¬ (can_lock i j = 1 ∧ can_lock j i = 1)) := by
  refine ⟨?_, ?_, ?_⟩ <;> decide

/-- Witness for C3 at concrete shard indices. -/
theorem can_lock_ring_rule_witness :
    can_lock 3 3 = 0 ∧ NBUCKET / 2 < fwdDist 0 7 ∧
      ¬ (can_lock 2 9 = 1 ∧ can_lock 9 2 = 1) :=
  ⟨can_lock_ring_rule.1 3 (by decide),
   can_lock_ring_rule.2.1 0 (by decide) 7 (by decide) (by decide),
   can_lock_ring_rule.2.2 2 (by decide) 9 (by decide)⟩

/-! ### Generic facts about `List.foldl min` -/

theorem foldl_min_le_init (l : List Nat) (a : Nat) : l.foldl min a ≤ a := by
  induction l generalizing a with
  | nil => exact Nat.le_refl a
  | cons t ts ih =>
    exact Nat.le_trans (ih (min a t)) (Nat.min_le_left a t)

theorem foldl_min_le_mem (l : List Nat) (a t : Nat) (ht : t ∈ l) : l.foldl min a ≤ t := by
  induction l generalizing a with
  | nil => cases ht
  | cons u us ih =>
    simp only [List.foldl_cons]
    rcases List.mem_cons.mp ht with h | h
    · subst h
      exact Nat.le_trans (foldl_min_le_init us (min a t)) (Nat.min_le_right a t)
    · exact ih (min a u) h

theorem foldl_min_eq_or_mem (l : List Nat) (a : Nat) :
    l.foldl min a = a ∨ l.foldl min a ∈ l := by
  induction l generalizing a with
  | nil => exact Or.inl rfl
  | cons t ts ih =>
    simp only [List.foldl_cons]
    rcases ih (min a t) with h | h
    · rcases Nat.le_total a t with hat | hta
      · rw [Nat.min_eq_left hat] at h ⊢
        exact Or.inl h
      · rw [Nat.min_eq_right hta] at h ⊢
        exact Or.inr (List.mem_cons.mpr (Or.inl h))
    · exact Or.inr (List.mem_cons.mpr (Or.inr h))

theorem foldl_min_init_le (l : List Nat) (a : Nat) (h : ∀ t ∈ l, a ≤ t) :
    l.foldl min a = a := by
  induction l generalizing a with
  | nil => rfl
  | cons t ts ih =>
    have hat : a ≤ t := h t (List.mem_cons_self t ts)
    simp only [List.foldl_cons, Nat.min_eq_left hat]
    exact ih a fun u hu => h u (List.mem_cons_of_mem t hu)

theorem foldl_min_self_le (l : List Nat) (a : Nat) (h : l.foldl min a = a) :
    ∀ t ∈ l, a ≤ t := by
  induction l generalizing a with
  | nil => intro t ht; cases ht
  | cons t ts ih =>
    simp only [List.foldl_cons] at h
    have h1 : ts.foldl min (min a t) ≤ min a t := foldl_min_le_init ts (min a t)
    have hmin : min a t = a := Nat.le_antisymm (Nat.min_le_left a t) (h.symm.le.trans h1)
    have hat : a ≤ t := min_eq_left_iff.mp hmin
    intro u hu
    rcases List.mem_cons.mp hu with h2 | h2
    · rw [h2]; exact hat
    · exact ih a (by rw [hmin] at h; exact h) u h2

/-! ### What the eviction scan computes -/

theorem mem_chainIdleTimes (c : List Buf) (t : Nat) :
    t ∈ chainIdleTimes c ↔ ∃ b ∈ c, b.refcnt = 0 ∧ b.time = t := by
  simp only [chainIdleTimes, List.mem_map, List.mem_filter, decide_eq_true_eq]
  constructor
  · rintro ⟨b, ⟨hb, h0⟩, ht⟩
    exact ⟨b, hb, h0, ht⟩
  · rintro ⟨b, hb, h0, ht⟩
    exact ⟨b, ⟨hb, h0⟩, ht⟩

theorem chainIdleTimes_cons (b : Buf) (c : List Buf) :
    chainIdleTimes (b :: c) =
      if b.refcnt = 0 then b.time :: chainIdleTimes c else chainIdleTimes c := by
  by_cases h : b.refcnt = 0 <;> simp [chainIdleTimes, h]

theorem scanStepBuf_minTick (j : Nat) (b : Buf) (s : ScanSt) :
    (scanStepBuf j b s).minTick =
      if b.refcnt = 0 ∧ b.time < s.minTick then b.time else s.minTick := by
  unfold scanStepBuf
  by_cases h : b.refcnt = 0 ∧ b.time < s.minTick <;> simp [h]

theorem scanStepBuf_idx (j : Nat) (b : Buf) (s : ScanSt) :
    (scanStepBuf j b s).idx =
      if b.refcnt = 0 ∧ b.time < s.minTick then some j else s.idx := by
  unfold scanStepBuf
  by_cases h : b.refcnt = 0 ∧ b.time < s.minTick <;> simp [h]

theorem scanStepBuf_maxHeld (j : Nat) (b : Buf) (s : ScanSt) :
    (scanStepBuf j b s).maxHeld = s.maxHeld := by
  unfold scanStepBuf
  by_cases h : b.refcnt = 0 ∧ b.time < s.minTick <;> simp [h]

theorem scanChain_minTick (j : Nat) (c : List Buf) (s : ScanSt) :
    (scanChain j c s).minTick = (chainIdleTimes c).foldl min s.minTick := by
  induction c generalizing s with
  | nil => simp [scanChain, chainIdleTimes]
  | cons b rest ih =>
    simp only [scanChain]
    rw [ih, chainIdleTimes_cons]
    by_cases h0 : b.refcnt = 0
    · rw [if_pos h0, List.foldl_cons, scanStepBuf_minTick]
      by_cases h1 : b.time < s.minTick
      · rw [if_pos ⟨h0, h1⟩, Nat.min_eq_right (Nat.le_of_lt h1)]
      · have : ¬ (b.refcnt = 0 ∧ b.time < s.minTick) := fun hc => h1 hc.2
        rw [if_neg this, Nat.min_eq_left (Nat.le_of_not_lt h1)]
    · have : ¬ (b.refcnt = 0 ∧ b.time < s.minTick) := fun hc => h0 hc.1
      rw [if_neg h0, scanStepBuf_minTick, if_neg this]

theorem scanChain_minTick_le (j : Nat) (c : List Buf) (s : ScanSt) :
    (scanChain j c s).minTick ≤ s.minTick := by
  rw [scanChain_minTick]
  exact foldl_min_le_init _ _

theorem scanChain_maxHeld (j : Nat) (c : List Buf) (s : ScanSt) :
    (scanChain j c s).maxHeld = s.maxHeld := by
  induction c generalizing s with
  | nil => rfl
  | cons b rest ih =>
    simp only [scanChain]
    rw [ih, scanStepBuf_maxHeld]

theorem scanChain_idx (j : Nat) (c : List Buf) (s : ScanSt) :
    (scanChain j c s).idx =
      if (scanChain j c s).minTick < s.minTick then some j else s.idx := by
  induction c generalizing s with
  | nil =>
    simp only [scanChain]
    rw [if_neg (lt_irrefl s.minTick)]
  | cons b rest ih =>
    simp only [scanChain]
    by_cases h : b.refcnt = 0 ∧ b.time < s.minTick
    · have h1 : (scanStepBuf j b s).idx = some j := by rw [scanStepBuf_idx, if_pos h]
      have h2 : (scanStepBuf j b s).minTick = b.time := by rw [scanStepBuf_minTick, if_pos h]
      have h3 : (scanChain j rest (scanStepBuf j b s)).minTick ≤ b.time := by
        have := scanChain_minTick_le j rest (scanStepBuf j b s)
        rw [h2] at this
        exact this
      have h4 : (scanChain j rest (scanStepBuf j b s)).minTick < s.minTick :=
        lt_of_le_of_lt h3 h.2
      rw [ih, h1, h2, ite_self, if_pos h4]
    · have h1 : scanStepBuf j b s = s := by unfold scanStepBuf; rw [if_neg h]
      simp only [h1]
      exact ih s

theorem scanShardRelease_idx (j : Nat) (s2 : ScanSt) :
    (scanShardRelease j s2).idx = s2.idx := by
  unfold scanShardRelease
  split <;> rfl

theorem scanShardRelease_minTick (j : Nat) (s2 : ScanSt) :
    (scanShardRelease j s2).minTick = s2.minTick := by
  unfold scanShardRelease
  split <;> rfl

theorem scanShardRelease_maxHeld (j : Nat) (s2 : ScanSt) :
    (scanShardRelease j s2).maxHeld = s2.maxHeld := by
  unfold scanShardRelease
  split <;> rfl

theorem scanShard_minTick (bid : Nat) (bk : List (List Buf)) (s : ScanSt) (j : Nat) :
    (scanShard bid bk s j).minTick =
      if can_lock bid j = 0 then s.minTick
      else (chainIdleTimes (bk.getD j [])).foldl min s.minTick := by
  unfold scanShard
  by_cases h : can_lock bid j = 0
  · rw [if_pos h, if_pos h]
  · rw [if_neg h, if_neg h, scanShardRelease_minTick, scanChain_minTick]
    rfl

theorem scanShard_minTick_le (bid : Nat) (bk : List (List Buf)) (s : ScanSt) (j : Nat) :
    (scanShard bid bk s j).minTick ≤ s.minTick := by
  rw [scanShard_minTick]
  split
  · exact Nat.le_refl _
  · exact foldl_min_le_init _ _

theorem scanShard_idx (bid : Nat) (bk : List (List Buf)) (s : ScanSt) (j : Nat) :
    (scanShard bid bk s j).idx =
      if (scanShard bid bk s j).minTick < s.minTick then some j else s.idx := by
  by_cases h : can_lock bid j = 0
  · have hs : scanShard bid bk s j = s := by unfold scanShard; rw [if_pos h]
    rw [hs, if_neg (lt_irrefl s.minTick)]
  · have hs : scanShard bid bk s j =
        scanShardRelease j (scanChain j (bk.getD j []) (scanShardAcquire s j)) := by
      unfold scanShard; rw [if_neg h]
    rw [hs, scanShardRelease_idx, scanShardRelease_minTick, scanChain_idx]
    rfl

theorem scanShard_maxHeld (bid : Nat) (bk : List (List Buf)) (s : ScanSt) (j : Nat) :
    (scanShard bid bk s j).maxHeld =
      if can_lock bid j = 0 then s.maxHeld
      else max s.maxHeld (j :: s.locks).length := by
  unfold scanShard
  by_cases h : can_lock bid j = 0
  · rw [if_pos h, if_pos h]
  · rw [if_neg h, if_neg h, scanShardRelease_maxHeld, scanChain_maxHeld]
    rfl

theorem foldl_scanShard_minTick (bid : Nat) (bk : List (List Buf)) (l : List Nat)
    (s : ScanSt) :
    (l.foldl (scanShard bid bk) s).minTick =
      ((l.filter fun j => decide (¬ can_lock bid j = 0)).flatMap
        fun j => chainIdleTimes (bk.getD j [])).foldl min s.minTick := by
  induction l generalizing s with
  | nil => simp
  | cons j rest ih =>
    by_cases h : can_lock bid j = 0
    · have hsk : scanShard bid bk s j = s := by unfold scanShard; rw [if_pos h]
      have hf : List.filter (fun j => decide (¬ can_lock bid j = 0)) (j :: rest) =
          List.filter (fun j => decide (¬ can_lock bid j = 0)) rest := by
        simp [h]
      rw [List.foldl_cons, hsk, hf]
      exact ih s
    · have hf : List.filter (fun j => decide (¬ can_lock bid j = 0)) (j :: rest) =
          j :: List.filter (fun j => decide (¬ can_lock bid j = 0)) rest := by
        simp [h]
      rw [List.foldl_cons, hf, List.flatMap_cons, List.foldl_append,
        ih (scanShard bid bk s j)]
      congr 1
      rw [scanShard_minTick, if_neg h]

theorem scanBuckets_minTick (bid : Nat) (bk : List (List Buf)) :
    (scanBuckets bid bk).minTick = (eligibleTimes bid bk).foldl min UINT32_MAX := by
  unfold scanBuckets eligibleTimes allowedShards
  rw [foldl_scanShard_minTick]
  rfl

theorem foldl_scanShard_idx_none (bid : Nat) (bk : List (List Buf)) (l : List Nat)
    (s : ScanSt) (h : (l.foldl (scanShard bid bk) s).idx = none) :
    s.idx = none ∧ (l.foldl (scanShard bid bk) s).minTick = s.minTick := by
  induction l generalizing s with
  | nil => exact ⟨h, rfl⟩
  | cons j rest ih =>
    simp only [List.foldl_cons] at h ⊢
    obtain ⟨h1, h2⟩ := ih (scanShard bid bk s j) h
    have h3 := scanShard_idx bid bk s j
    rw [h1] at h3
    by_cases h4 : (scanShard bid bk s j).minTick < s.minTick
    · rw [if_pos h4] at h3
      cases h3
    · rw [if_neg h4] at h3
      have h5 : (scanShard bid bk s j).minTick = s.minTick :=
        Nat.le_antisymm (scanShard_minTick_le bid bk s j) (Nat.le_of_not_lt h4)
      exact ⟨h3.symm, by rw [h2, h5]⟩

theorem foldl_scanShard_idx_none_of (bid : Nat) (bk : List (List Buf)) (l : List Nat)
    (s : ScanSt) (hidx : s.idx = none)
    (h : ∀ j ∈ l, ¬ can_lock bid j = 0 →
      ∀ t ∈ chainIdleTimes (bk.getD j []), s.minTick ≤ t) :
    (l.foldl (scanShard bid bk) s).idx = none ∧
    (l.foldl (scanShard bid bk) s).minTick = s.minTick := by
  induction l generalizing s with
  | nil => exact ⟨hidx, rfl⟩
  | cons j rest ih =>
    simp only [List.foldl_cons]
    have hstep : (scanShard bid bk s j).minTick = s.minTick := by
      rw [scanShard_minTick]
      by_cases hc : can_lock bid j = 0
      · rw [if_pos hc]
      · rw [if_neg hc]
        exact foldl_min_init_le _ _ (h j (List.mem_cons_self j rest) hc)
    have hstepidx : (scanShard bid bk s j).idx = none := by
      rw [scanShard_idx, hstep, if_neg (lt_irrefl s.minTick), hidx]
    obtain ⟨ih1, ih2⟩ := ih (scanShard bid bk s j) hstepidx
      (fun u hu hcu t ht => by
        rw [hstep]
        exact h u (List.mem_cons_of_mem j hu) hcu t ht)
    exact ⟨ih1, by rw [ih2, hstep]⟩

theorem scanShard_ok (bid : Nat) (bk : List (List Buf)) (s : ScanSt) (j : Nat)
    (hj : j < NBUCKET) (hs : scanOk bid bk s) :
    scanOk bid bk (scanShard bid bk s j) := by
  by_cases hc : can_lock bid j = 0
  · have hsk : scanShard bid bk s j = s := by unfold scanShard; rw [if_pos hc]
    rw [hsk]
    exact hs
  · have hidx := scanShard_idx bid bk s j
    by_cases hlt : (scanShard bid bk s j).minTick < s.minTick
    · rw [if_pos hlt] at hidx
      right
      refine ⟨j, hidx, hc, hj, ?_⟩
      have hmt := scanShard_minTick bid bk s j
      rw [if_neg hc] at hmt
      rcases foldl_min_eq_or_mem (chainIdleTimes (bk.getD j [])) s.minTick with he | hm
      · rw [hmt, he] at hlt
        exact absurd hlt (lt_irrefl _)
      · rw [← hmt] at hm
        obtain ⟨b, hb, hb0, hbt⟩ := (mem_chainIdleTimes _ _).mp hm
        exact ⟨b, hb, hb0, hbt⟩
    · rw [if_neg hlt] at hidx
      have heq : (scanShard bid bk s j).minTick = s.minTick :=
        Nat.le_antisymm (scanShard_minTick_le bid bk s j) (Nat.le_of_not_lt hlt)
      rcases hs with h0 | ⟨i, hi, hci, hiN, b, hb, hb0, hbt⟩
      · left
        rw [hidx, h0]
      · right
        exact ⟨i, by rw [hidx, hi], hci, hiN, b, hb, hb0, by rw [heq, hbt]⟩

theorem foldl_scanShard_ok (bid : Nat) (bk : List (List Buf)) (l : List Nat)
    (s : ScanSt) (hl : ∀ j ∈ l, j < NBUCKET) (hs : scanOk bid bk s) :
    scanOk bid bk (l.foldl (scanShard bid bk) s) := by
  induction l generalizing s with
  | nil => exact hs
  | cons j rest ih =>
    simp only [List.foldl_cons]
    exact ih (scanShard bid bk s j) (fun u hu => hl u (List.mem_cons_of_mem j hu))
      (scanShard_ok bid bk s j (hl j (List.mem_cons_self j rest)) hs)

theorem scanBuckets_ok (bid : Nat) (bk : List (List Buf)) :
    scanOk bid bk (scanBuckets bid bk) := by
  unfold scanBuckets
  exact foldl_scanShard_ok bid bk (List.range NBUCKET) (scanInit bid)
    (fun j hj => List.mem_range.mp hj) (Or.inl rfl)

/-! ### The move phase and the fast path, structurally -/

theorem movePhase_none_iff (dev blockno m : Nat) (c : List Buf) :
    movePhase dev blockno m c = none ↔ ∀ b ∈ c, ¬ (b.refcnt = 0 ∧ b.time = m) := by
  induction c with
  | nil => simp [movePhase]
  | cons b rest ih =>
    by_cases h : b.refcnt = 0 ∧ b.time = m
    · simp only [movePhase, if_pos h]
      constructor
      · intro hn
        cases hn
      · intro ha
        exact absurd h (ha b (List.mem_cons_self b rest))
    · have key : movePhase dev blockno m (b :: rest) = none ↔
          movePhase dev blockno m rest = none := by
        simp only [movePhase, if_neg h]
        cases movePhase dev blockno m rest <;> simp
      rw [key, ih]
      constructor
      · intro ha b2 hb2
        rcases List.mem_cons.mp hb2 with h2 | h2
        · rw [h2]
          exact h
        · exact ha b2 h2
      · intro ha b2 hb2
        exact ha b2 (List.mem_cons_of_mem b hb2)

theorem movePhase_some (dev blockno m : Nat) (c c2 : List Buf) (v : Buf)
    (h : movePhase dev blockno m c = some (c2, v)) :
    ∃ pre w post, c = pre ++ w :: post ∧
      (∀ x ∈ pre, ¬ (x.refcnt = 0 ∧ x.time = m)) ∧
      w.refcnt = 0 ∧ w.time = m ∧ c2 = pre ++ post ∧ v = vmoved w dev blockno := by
  induction c generalizing c2 v with
  | nil => simp [movePhase] at h
  | cons b rest ih =>
    by_cases hb : b.refcnt = 0 ∧ b.time = m
    · simp only [movePhase, if_pos hb, Option.some.injEq, Prod.mk.injEq] at h
      exact ⟨[], b, rest, rfl, by simp, hb.1, hb.2, by simp [h.1.symm], h.2.symm⟩
    · simp only [movePhase, if_neg hb] at h
      cases hm : movePhase dev blockno m rest with
      | none =>
        rw [hm] at h
        cases h
      | some rv =>
        rw [hm] at h
        obtain ⟨r2, v2⟩ := rv
        simp only [Option.some.injEq, Prod.mk.injEq] at h
        obtain ⟨h1, h2⟩ := h
        obtain ⟨pre, w, post, hc, hpre, hw0, hwt, hc2, hv⟩ := ih r2 v2 hm
        refine ⟨b :: pre, w, post, by rw [hc]; rfl, ?_, hw0, hwt, ?_, by rw [← h2, hv]⟩
        · intro x hx
          rcases List.mem_cons.mp hx with h3 | h3
          · rw [h3]
            exact hb
          · exact hpre x h3
        · rw [← h1, hc2]
          rfl

theorem hitChain_some (dev blockno : Nat) (c c2 : List Buf) (p : Nat)
    (h : hitChain dev blockno c = some (c2, p)) :
    ∃ pre w post, c = pre ++ w :: post ∧ p = pre.length ∧
      w.dev = dev ∧ w.blockno = blockno ∧
      c2 = pre ++ ({ w with refcnt := (w.refcnt + 1) % U32, lockHeld := true } :: post) := by
  induction c generalizing c2 p with
  | nil => simp [hitChain] at h
  | cons b rest ih =>
    by_cases hb : b.dev = dev ∧ b.blockno = blockno
    · simp only [hitChain, if_pos hb, Option.some.injEq, Prod.mk.injEq] at h
      exact ⟨[], b, rest, rfl, h.2.symm, hb.1, hb.2, by simp [h.1.symm]⟩
    · simp only [hitChain, if_neg hb] at h
      cases hm : hitChain dev blockno rest with
      | none =>
        rw [hm] at h
        cases h
      | some rv =>
        rw [hm] at h
        obtain ⟨r2, p2⟩ := rv
        simp only [Option.some.injEq, Prod.mk.injEq] at h
        obtain ⟨h1, h2⟩ := h
        obtain ⟨pre, w, post, hc, hp, hw1, hw2, hc2⟩ := ih r2 p2 hm
        refine ⟨b :: pre, w, post, by rw [hc]; rfl, ?_, hw1, hw2, ?_⟩
        · rw [← h2, hp]
          rfl
        · rw [← h1, hc2]
          rfl

theorem hitChain_none_iff (dev blockno : Nat) (c : List Buf) :
    hitChain dev blockno c = none ↔
      ∀ b ∈ c, ¬ (b.dev = dev ∧ b.blockno = blockno) := by
  induction c with
  | nil => simp [hitChain]
  | cons b rest ih =>
    by_cases hb : b.dev = dev ∧ b.blockno = blockno
    · simp only [hitChain, if_pos hb]
      constructor
      · intro hn
        cases hn
      · intro ha
        exact absurd hb (ha b (List.mem_cons_self b rest))
    · have key : hitChain dev blockno (b :: rest) = none ↔
          hitChain dev blockno rest = none := by
        simp only [hitChain, if_neg hb]
        cases hitChain dev blockno rest <;> simp
      rw [key, ih]
      constructor
      · intro ha b2 hb2
        rcases List.mem_cons.mp hb2 with h2 | h2
        · rw [h2]
          exact hb
        · exact ha b2 h2
      · intro ha b2 hb2
        exact ha b2 (List.mem_cons_of_mem b hb2)

/-! ### Small list helpers -/

theorem list_getD_set_self {α : Type} (l : List α) (n : Nat) (a d : α)
    (h : n < l.length) : (l.set n a).getD n d = a := by
  induction l generalizing n with
  | nil => cases h
  | cons x xs ih =>
    cases n with
    | zero => rfl
    | succ m => exact ih m (Nat.lt_of_succ_lt_succ h)

theorem list_getD_set_ne {α : Type} (l : List α) (m n : Nat) (a d : α)
    (h : ¬ m = n) : (l.set m a).getD n d = l.getD n d := by
  induction l generalizing m n with
  | nil => rfl
  | cons x xs ih =>
    cases m with
    | zero =>
      cases n with
      | zero => exact absurd rfl h
      | succ k => rfl
    | succ m2 =>
      cases n with
      | zero => rfl
      | succ k => exact ih m2 k fun he => h (by rw [he])

theorem list_getD_append_length {α : Type} (pre : List α) (w : α) (post : List α)
    (d : α) : (pre ++ w :: post).getD pre.length d = w := by
  induction pre with
  | nil => rfl
  | cons x xs ih => exact ih

theorem can_lock_self (x : Nat) : can_lock x x = 0 := by
  unfold can_lock
  simp

theorem bget_miss_some (dev blockno : Nat) (buckets : List (List Buf))
    (r : List (List Buf) × Nat × Nat)
    (hmiss : hitChain dev blockno (buckets.getD (blockno % NBUCKET) []) = none)
    (h : bget dev blockno buckets = some r) :
    ∃ i donor v, (scanBuckets (blockno % NBUCKET) buckets).idx = some i ∧
      movePhase dev blockno (scanBuckets (blockno % NBUCKET) buckets).minTick
        (buckets.getD i []) = some (donor, v) ∧
      r = ((buckets.set i donor).set (blockno % NBUCKET)
            (((buckets.set i donor).getD (blockno % NBUCKET) []) ++ [v]),
           blockno % NBUCKET,
           ((buckets.set i donor).getD (blockno % NBUCKET) []).length) := by
  unfold bget at h
  simp only [hmiss] at h
  split at h
  · cases h
  · rename_i index heq
    split at h
    · cases h
    · rename_i donor m heq2
      exact ⟨index, donor, m, heq, heq2, (Option.some.inj h).symm⟩

theorem bget_hit_eq (dev blockno : Nat) (buckets : List (List Buf)) (c : List Buf)
    (p : Nat)
    (hhit : hitChain dev blockno (buckets.getD (blockno % NBUCKET) []) = some (c, p)) :
    bget dev blockno buckets =
      some (buckets.set (blockno % NBUCKET) c, blockno % NBUCKET, p) := by
  unfold bget
  simp only [hhit]

theorem bget_miss_extract (dev blockno : Nat) (buckets : List (List Buf))
    (r : List (List Buf) × Nat × Nat)
    (hlen : buckets.length = NBUCKET)
    (hmiss : hitChain dev blockno (buckets.getD (blockno % NBUCKET) []) = none)
    (h : bget dev blockno buckets = some r) :
    ∃ i pre w post,
      (scanBuckets (blockno % NBUCKET) buckets).idx = some i ∧
      ¬ can_lock (blockno % NBUCKET) i = 0 ∧ i < NBUCKET ∧ ¬ i = blockno % NBUCKET ∧
      buckets.getD i [] = pre ++ w :: post ∧
      (∀ x ∈ pre,
        ¬ (x.refcnt = 0 ∧ x.time = (scanBuckets (blockno % NBUCKET) buckets).minTick)) ∧
      w.refcnt = 0 ∧ w.time = (scanBuckets (blockno % NBUCKET) buckets).minTick ∧
      r = ((buckets.set i (pre ++ post)).set (blockno % NBUCKET)
            (buckets.getD (blockno % NBUCKET) [] ++ [vmoved w dev blockno]),
           blockno % NBUCKET, (buckets.getD (blockno % NBUCKET) []).length) ∧
      bgetBuf dev blockno buckets = some (vmoved w dev blockno) := by
  obtain ⟨i, donor, v, hidx, hmv, hr⟩ := bget_miss_some dev blockno buckets r hmiss h
  have hok := scanBuckets_ok (blockno % NBUCKET) buckets
  rcases hok with h0 | ⟨i2, hi2, hci, hiN, _, _, _, _⟩
  · rw [hidx] at h0
    cases h0
  · rw [hidx] at hi2
    have hii : i2 = i := (Option.some.inj hi2).symm
    rw [hii] at hci hiN
    have hne : ¬ i = blockno % NBUCKET := by
      intro he
      rw [he] at hci
      exact hci (can_lock_self (blockno % NBUCKET))
    obtain ⟨pre, w, post, hchain, hpre, hw0, hwt, hdonor, hv⟩ :=
      movePhase_some dev blockno (scanBuckets (blockno % NBUCKET) buckets).minTick
        (buckets.getD i []) donor v hmv
    have htgt : (buckets.set i donor).getD (blockno % NBUCKET) [] =
        buckets.getD (blockno % NBUCKET) [] := list_getD_set_ne _ _ _ _ _ hne
    have hbid : blockno % NBUCKET < NBUCKET := Nat.mod_lt _ (by decide)
    have hr2 : r = ((buckets.set i (pre ++ post)).set (blockno % NBUCKET)
          (buckets.getD (blockno % NBUCKET) [] ++ [vmoved w dev blockno]),
        blockno % NBUCKET, (buckets.getD (blockno % NBUCKET) []).length) := by
      rw [hr, htgt, hdonor, hv]
    refine ⟨i, pre, w, post, hidx, hci, hiN, hne, hchain, hpre, hw0, hwt, hr2, ?_⟩
    unfold bgetBuf
    rw [h, hr2]
    simp only [Option.map_some']
    congr 1
    have hlen2 : (buckets.set i (pre ++ post)).length = buckets.length :=
      List.length_set buckets i (pre ++ post)
    have hget : ((buckets.set i (pre ++ post)).set (blockno % NBUCKET)
          (buckets.getD (blockno % NBUCKET) [] ++ [vmoved w dev blockno])).getD
          (blockno % NBUCKET) [] =
        buckets.getD (blockno % NBUCKET) [] ++ [vmoved w dev blockno] :=
      list_getD_set_self _ _ _ _ (by rw [hlen2, hlen]; exact hbid)
    rw [hget]
    exact list_getD_append_length _ _ _ _

/-- C1 (amended): on a miss with eviction, the victim `bget` returns is
an unreferenced buffer whose idle tick is minimal among the unreferenced
buffers of the shards reachable from the target shard under `can_lock`
(`eligibleTimes`) — the scan skips the target shard itself and every
shard within forward cyclic distance `NBUCKET/2`, so it is not a global
LRU. -/
theorem bget_victim_min_reachable (dev blockno : Nat) (buckets : List (List Buf))
    (v : Buf) (hlen : buckets.length = NBUCKET)
    (hmiss : hitChain dev blockno (buckets.getD (blockno % NBUCKET) []) = none)
    (h : bgetBuf dev blockno buckets = some v) :
    v.time ∈ eligibleTimes (blockno % NBUCKET) buckets ∧
    ∀ t ∈ eligibleTimes (blockno % NBUCKET) buckets, v.time ≤ t := by
  have hb : ∃ r, bget dev blockno buckets = some r := by
    unfold bgetBuf at h
    cases hbb : bget dev blockno buckets with
    | none =>
      rw [hbb] at h
      cases h
    | some r => exact ⟨r, rfl⟩
  obtain ⟨r, hb⟩ := hb
  obtain ⟨i, pre, w, post, hidx, hci, hiN, hne, hchain, hpre, hw0, hwt, hr2, hbuf⟩ :=
    bget_miss_extract dev blockno buckets r hlen hmiss hb
  have hv : v = vmoved w dev blockno := Option.some.inj (h.symm.trans hbuf)
  have hvt : v.time = (scanBuckets (blockno % NBUCKET) buckets).minTick := by
    rw [hv]
    exact hwt
  constructor
  · rw [hvt, ← hwt]
    unfold eligibleTimes
    apply List.mem_flatMap.mpr
    refine ⟨i, ?_, ?_⟩
    · unfold allowedShards
      exact List.mem_filter.mpr ⟨List.mem_range.mpr hiN, by simpa using hci⟩
    · exact (mem_chainIdleTimes _ _).mpr
        ⟨w, by rw [hchain]; exact List.mem_append.mpr (Or.inr (List.mem_cons_self w post)),
         hw0, rfl⟩
  · intro t ht
    rw [hvt, scanBuckets_minTick]
    exact foldl_min_le_mem _ _ t ht

/-- C1 counterexample: with target shard 0, the scan visits only shards
7–12; the shard-1 buffer with idle tick 0 and `refcnt == 0` is ignored
and the shard-7 buffer with tick 5 is evicted instead, so `bget` does
not implement a pool-wide (global) LRU. -/
theorem bget_not_global_lru :
    (bgetBuf 1 0 cexBuckets1).map Buf.time = some 5 ∧
    mkBuf 1 1 true 0 0 ∈ cexBuckets1.getD 1 [] ∧
    (mkBuf 1 1 true 0 0).refcnt = 0 ∧ (mkBuf 1 1 true 0 0).time = 0 ∧
    ¬ (5 : Nat) ≤ (mkBuf 1 1 true 0 0).time := by
  decide

/-- Witness for the amended C1 at a concrete cache state. -/
theorem bget_victim_min_reachable_witness :
    cexBuckets1.length = NBUCKET ∧
    hitChain 1 0 (cexBuckets1.getD (0 % NBUCKET) []) = none ∧
    ((vmoved (mkBuf 1 7 true 0 5) 1 0).time ∈ eligibleTimes (0 % NBUCKET) cexBuckets1 ∧
     ∀ t ∈ eligibleTimes (0 % NBUCKET) cexBuckets1,
       (vmoved (mkBuf 1 7 true 0 5) 1 0).time ≤ t) :=
  ⟨by decide, by decide,
   bget_victim_min_reachable 1 0 cexBuckets1 (vmoved (mkBuf 1 7 true 0 5) 1 0)
     (by decide) (by decide) (by decide)⟩

/-- C2 (amended): on a miss, `bget` panics (`none`) if and only if every
unreferenced buffer in the shards reachable under `can_lock` from the
target shard has idle tick at least `0xffffffff`; in particular an
unreferenced buffer in an unreachable shard (including the target shard
itself) does not prevent the panic. -/
theorem bget_panic_iff_no_reachable_candidate (dev blockno : Nat)
    (buckets : List (List Buf))
    (hmiss : hitChain dev blockno (buckets.getD (blockno % NBUCKET) []) = none) :
    bget dev blockno buckets = none ↔
      ∀ t ∈ eligibleTimes (blockno % NBUCKET) buckets, UINT32_MAX ≤ t := by
  constructor
  · intro hn
    cases hidx : (scanBuckets (blockno % NBUCKET) buckets).idx with
    | some i =>
      exfalso
      have hok := scanBuckets_ok (blockno % NBUCKET) buckets
      rcases hok with h0 | ⟨i2, hi2, hci, hiN, b, hbmem, hb0, hbt⟩
      · rw [hidx] at h0
        cases h0
      · rw [hidx] at hi2
        have hii : i2 = i := (Option.some.inj hi2).symm
        rw [hii] at hbmem
        cases hmvs : movePhase dev blockno
            (scanBuckets (blockno % NBUCKET) buckets).minTick (buckets.getD i []) with
        | none =>
          exact absurd ⟨hb0, hbt⟩ ((movePhase_none_iff _ _ _ _).mp hmvs b hbmem)
        | some dv =>
          obtain ⟨donor, m⟩ := dv
          unfold bget at hn
          simp only [hmiss, hidx, hmvs] at hn
          exact Option.noConfusion hn
    | none =>
      have h2 := foldl_scanShard_idx_none (blockno % NBUCKET) buckets
        (List.range NBUCKET) (scanInit (blockno % NBUCKET)) hidx
      intro t ht
      apply foldl_min_self_le (eligibleTimes (blockno % NBUCKET) buckets) UINT32_MAX
        _ t ht
      rw [← scanBuckets_minTick]
      exact h2.2
  · intro hall
    have hnone := foldl_scanShard_idx_none_of (blockno % NBUCKET) buckets
      (List.range NBUCKET) (scanInit (blockno % NBUCKET)) rfl
      (fun j hj hcj t ht => by
        apply hall t
        unfold eligibleTimes
        apply List.mem_flatMap.mpr
        refine ⟨j, ?_, ht⟩
        unfold allowedShards
        exact List.mem_filter.mpr ⟨hj, by simpa using hcj⟩)
    have hidxn : (scanBuckets (blockno % NBUCKET) buckets).idx = none := hnone.1
    unfold bget
    simp only [hmiss]
    split
    · rfl
    · rename_i index heq
      rw [hidxn] at heq
      cases heq

/-- C2 counterexample: `cexBuckets2` holds an unreferenced buffer (in
shard 1), yet a miss for block 0 (target shard 0) panics, because shard
1 is not reachable from shard 0 under `can_lock`. -/
theorem bget_panic_spurious :
    bget 1 0 cexBuckets2 = none ∧
    mkBuf 1 1 true 0 0 ∈ cexBuckets2.getD 1 [] ∧
    (mkBuf 1 1 true 0 0).refcnt = 0 := by
  decide

/-- Witness for the amended C2 at a concrete cache state. -/
theorem bget_panic_iff_no_reachable_candidate_witness :
    hitChain 1 0 (cexBuckets2.getD (0 % NBUCKET) []) = none ∧
    (bget 1 0 cexBuckets2 = none ↔
      ∀ t ∈ eligibleTimes (0 % NBUCKET) cexBuckets2, UINT32_MAX ≤ t) :=
  ⟨by decide, bget_panic_iff_no_reachable_candidate 1 0 cexBuckets2 (by decide)⟩

/-- C5: on the miss path, `bget` unlinks the chosen victim from its
donor shard's chain, re-identifies it to the requested
`(dev, blockno)` with `valid` cleared and `refcnt = 1`, appends it at
the tail of the target shard's chain (`blockno % NBUCKET`), and returns
it with the sleep lock held; afterwards the victim's slot is gone from
the donor chain and the target chain is the old chain plus exactly one
new final element. -/
theorem bget_move_semantics (dev blockno : Nat) (buckets : List (List Buf))
    (r : List (List Buf) × Nat × Nat) (hlen : buckets.length = NBUCKET)
    (hmiss : hitChain dev blockno (buckets.getD (blockno % NBUCKET) []) = none)
    (h : bget dev blockno buckets = some r) :
    r.2.1 = blockno % NBUCKET ∧
    ∃ i pre w post,
      (scanBuckets (blockno % NBUCKET) buckets).idx = some i ∧
      ¬ i = blockno % NBUCKET ∧
      buckets.getD i [] = pre ++ w :: post ∧
      w.refcnt = 0 ∧
      r.1.getD i [] = pre ++ post ∧
      r.1.getD (blockno % NBUCKET) [] =
        buckets.getD (blockno % NBUCKET) [] ++ [vmoved w dev blockno] ∧
      (vmoved w dev blockno).dev = dev ∧
      (vmoved w dev blockno).blockno = blockno ∧
      (vmoved w dev blockno).valid = false ∧
      (vmoved w dev blockno).refcnt = 1 ∧
      (vmoved w dev blockno).lockHeld = true ∧
      r.2.2 = (buckets.getD (blockno % NBUCKET) []).length ∧
      bgetBuf dev blockno buckets = some (vmoved w dev blockno) := by
  obtain ⟨i, pre, w, post, hidx, hci, hiN, hne, hchain, hpre, hw0, hwt, hr2, hbuf⟩ :=
    bget_miss_extract dev blockno buckets r hlen hmiss h
  have hbid : blockno % NBUCKET < NBUCKET := Nat.mod_lt _ (by decide)
  have hiL : i < buckets.length := by rw [hlen]; exact hiN
  have hdonor : r.1.getD i [] = pre ++ post := by
    rw [hr2]
    have h1 : ((buckets.set i (pre ++ post)).set (blockno % NBUCKET)
        (buckets.getD (blockno % NBUCKET) [] ++ [vmoved w dev blockno])).getD i [] =
        (buckets.set i (pre ++ post)).getD i [] :=
      list_getD_set_ne _ _ _ _ _ fun he => hne he.symm
    rw [h1]
    exact list_getD_set_self _ _ _ _ hiL
  have htgt : r.1.getD (blockno % NBUCKET) [] =
      buckets.getD (blockno % NBUCKET) [] ++ [vmoved w dev blockno] := by
    rw [hr2]
    exact list_getD_set_self _ _ _ _
      (by rw [List.length_set buckets i (pre ++ post), hlen]; exact hbid)
  exact ⟨by rw [hr2], i, pre, w, post, hidx, hne, hchain, hw0, hdonor, htgt,
    rfl, rfl, rfl, rfl, rfl, by rw [hr2], hbuf⟩

/-- Witness for C5 at a concrete cache state. -/
theorem bget_move_semantics_witness :
    cexBuckets1.length = NBUCKET ∧
    hitChain 1 0 (cexBuckets1.getD (0 % NBUCKET) []) = none ∧
    bget 1 0 cexBuckets1 =
      some (((cexBuckets1.set 7 ([] : List Buf)).set 0 [vmoved (mkBuf 1 7 true 0 5) 1 0]),
        0, 0) ∧
    ((((cexBuckets1.set 7 ([] : List Buf)).set 0 [vmoved (mkBuf 1 7 true 0 5) 1 0]),
        (0 : Nat), (0 : Nat)).2.1 = 0 % NBUCKET) :=
  ⟨by decide, by decide, by decide,
   (bget_move_semantics 1 0 cexBuckets1
     (((cexBuckets1.set 7 ([] : List Buf)).set 0 [vmoved (mkBuf 1 7 true 0 5) 1 0]), 0, 0)
     (by decide) (by decide) (by decide)).1⟩

/-- C6: a buffer with nonzero `refcnt` is never an eviction candidate:
the scan step ignores it, the move phase never selects it, and an unpin
that brings the count from 1 back to 0 restores eligibility. -/
theorem eviction_never_takes_referenced :
    (∀ j : Nat, ∀ b : Buf, ∀ s : ScanSt, ¬ b.refcnt = 0 → scanStepBuf j b s = s) ∧
    (∀ dev blockno m : Nat, ∀ c c2 : List Buf, ∀ v : Buf,
      movePhase dev blockno m c = some (c2, v) →
      ∃ w, w ∈ c ∧ w.refcnt = 0 ∧ v = vmoved w dev blockno) ∧
    (∀ b : Buf, b.refcnt = 1 → (bunpin b).refcnt = 0) := by
  refine ⟨?_, ?_, ?_⟩
  · intro j b s h0
    unfold scanStepBuf
    rw [if_neg fun hc => h0 hc.1]
  · intro dev blockno m c c2 v h
    obtain ⟨pre, w, post, hc, hpre, hw0, hwt, hc2, hv⟩ :=
      movePhase_some dev blockno m c c2 v h
    exact ⟨w, by rw [hc]; exact List.mem_append.mpr (Or.inr (List.mem_cons_self w post)),
      hw0, hv⟩
  · intro b h1
    unfold bunpin
    simp only [h1, U32]

/-- Witness for C6 at concrete inputs. -/
theorem eviction_never_takes_referenced_witness :
    scanStepBuf 2 (mkBuf 1 1 true 3 0) (scanInit 0) = scanInit 0 ∧
    (∃ w, w ∈ [mkBuf 1 7 true 0 5] ∧ w.refcnt = 0 ∧
      vmoved (mkBuf 1 7 true 0 5) 1 0 = vmoved w 1 0) ∧
    (bunpin (mkBuf 1 1 true 1 0)).refcnt = 0 :=
  ⟨eviction_never_takes_referenced.1 2 (mkBuf 1 1 true 3 0) (scanInit 0) (by decide),
   eviction_never_takes_referenced.2.1 1 0 5 [mkBuf 1 7 true 0 5] []
     (vmoved (mkBuf 1 7 true 0 5) 1 0) (by decide),
   eviction_never_takes_referenced.2.2 (mkBuf 1 1 true 1 0) (by decide)⟩

theorem bgetBuf_id (dev blockno : Nat) (buckets : List (List Buf)) (v : Buf)
    (hlen : buckets.length = NBUCKET)
    (h : bgetBuf dev blockno buckets = some v) :
    v.dev = dev ∧ v.blockno = blockno ∧ v.lockHeld = true := by
  cases hhit : hitChain dev blockno (buckets.getD (blockno % NBUCKET) []) with
  | none =>
    have hb : ∃ r, bget dev blockno buckets = some r := by
      unfold bgetBuf at h
      cases hbb : bget dev blockno buckets with
      | none =>
        rw [hbb] at h
        cases h
      | some r => exact ⟨r, rfl⟩
    obtain ⟨r, hb⟩ := hb
    obtain ⟨i, pre, w, post, hidx, hci, hiN, hne, hchain, hpre, hw0, hwt, hr2, hbuf⟩ :=
      bget_miss_extract dev blockno buckets r hlen hhit hb
    have hv : v = vmoved w dev blockno := Option.some.inj (h.symm.trans hbuf)
    rw [hv]
    exact ⟨rfl, rfl, rfl⟩
  | some cp =>
    obtain ⟨c, p⟩ := cp
    have hb := bget_hit_eq dev blockno buckets c p hhit
    unfold bgetBuf at h
    rw [hb] at h
    simp only [Option.map_some'] at h
    obtain ⟨pre, w, post, hcc, hp, hw1, hw2, hc2⟩ :=
      hitChain_some dev blockno _ c p hhit
    have hbid : blockno % NBUCKET < buckets.length := by
      rw [hlen]
      exact Nat.mod_lt _ (by decide)
    have hset : (buckets.set (blockno % NBUCKET) c).getD (blockno % NBUCKET) [] = c :=
      list_getD_set_self _ _ _ _ hbid
    rw [hset] at h
    have hv : v = c.getD p default := (Option.some.inj h).symm
    rw [hc2, hp, list_getD_append_length] at hv
    rw [hv]
    exact ⟨hw1, hw2, rfl⟩

/-- C7: `bread` returns a locked, valid buffer; it performs a device
read into the payload (and marks valid) exactly when the buffer `bget`
returned was not valid, and leaves a valid buffer's payload untouched
(no device read). -/
theorem bread_semantics (dev blockno : Nat) (disk : Disk) (buckets : List (List Buf))
    (bk : List (List Buf)) (b : Buf) (log : List (Nat × Nat))
    (hlen : buckets.length = NBUCKET)
    (h : bread dev blockno disk buckets = some (bk, b, log)) :
    b.lockHeld = true ∧ b.valid = true ∧
    ∃ b0, bgetBuf dev blockno buckets = some b0 ∧
      (b0.valid = false →
        b = { b0 with data := diskRead disk dev blockno, valid := true } ∧
        log = [(dev, blockno)]) ∧
      (b0.valid = true → b = b0 ∧ log = []) := by
  unfold bread at h
  split at h
  · cases h
  · rename_i bk1 sh p heq
    have hid := bgetBuf_id dev blockno buckets ((bk1.getD sh []).getD p default) hlen
      (by unfold bgetBuf; rw [heq]; rfl)
    have hb0 : bgetBuf dev blockno buckets = some ((bk1.getD sh []).getD p default) := by
      unfold bgetBuf
      rw [heq]
      rfl
    split at h
    · rename_i hvf
      simp only [Option.some.injEq, Prod.mk.injEq] at h
      obtain ⟨h1, h2, h3⟩ := h
      refine ⟨?_, ?_, (bk1.getD sh []).getD p default, hb0, ?_, ?_⟩
      · rw [← h2]
        exact hid.2.2
      · rw [← h2]
        rfl
      · intro _
        constructor
        · rw [← h2]
          unfold breadFill
          rw [hid.1, hid.2.1]
        · rw [← h3, hid.1, hid.2.1]
      · intro hvt
        rw [hvt] at hvf
        cases hvf
    · rename_i hvf
      have hvt : ((bk1.getD sh []).getD p default).valid = true := by
        revert hvf
        cases ((bk1.getD sh []).getD p default).valid <;> simp
      simp only [Option.some.injEq, Prod.mk.injEq] at h
      obtain ⟨h1, h2, h3⟩ := h
      refine ⟨?_, ?_, (bk1.getD sh []).getD p default, hb0, ?_, ?_⟩
      · rw [← h2]
        exact hid.2.2
      · rw [← h2]
        exact hvt
      · intro hf
        rw [hf] at hvt
        cases hvt
      · intro _
        exact ⟨h2.symm, h3.symm⟩

/-- Witness for C7: reading block 0 of device 1 against `cexBuckets1`
forces an eviction, a device read, and returns a locked valid buffer. -/
theorem bread_semantics_witness :
    cexBuckets1.length = NBUCKET ∧
    (Buf.mk 1 0 true 1 5 true [9, 9]).lockHeld = true ∧
    (Buf.mk 1 0 true 1 5 true [9, 9]).valid = true ∧
    (∃ b0, bgetBuf 1 0 cexBuckets1 = some b0 ∧
      (b0.valid = false →
        Buf.mk 1 0 true 1 5 true [9, 9] =
          { b0 with data := diskRead [((1, 0), [9, 9])] 1 0, valid := true } ∧
        ([((1 : Nat), (0 : Nat))] : List (Nat × Nat)) = [(1, 0)]) ∧
      (b0.valid = true →
        Buf.mk 1 0 true 1 5 true [9, 9] = b0 ∧
        ([((1 : Nat), (0 : Nat))] : List (Nat × Nat)) = [])) := by
  have hmain := bread_semantics 1 0 [((1, 0), [9, 9])] cexBuckets1
    [[Buf.mk 1 0 true 1 5 true [9, 9]], [mkBuf 1 1 true 0 0],
      [], [], [], [], [], [], [], [], [], [], []]
    (Buf.mk 1 0 true 1 5 true [9, 9]) [(1, 0)] (by decide) (by decide)
  exact ⟨by decide, hmain.1, hmain.2.1, hmain.2.2⟩

/-- C8: `brelse` requires the sleep lock (else it panics before touching
state); with the lock held it drops the lock, decrements `refcnt` with C
`uint` wrap-around (exactly one for counts in `[1, 2^32)`), stamps
`time := ticks` exactly when the count reaches zero, and changes no
other field. -/
theorem brelse_semantics (ticks : Nat) (b : Buf) :
    (b.lockHeld = false → brelse ticks b = none) ∧
    (b.lockHeld = true → ∃ b2, brelse ticks b = some b2 ∧
      b2.lockHeld = false ∧
      b2.refcnt = (b.refcnt + (U32 - 1)) % U32 ∧
      (b2.refcnt = 0 → b2.time = ticks) ∧
      (¬ b2.refcnt = 0 → b2.time = b.time) ∧
      b2.dev = b.dev ∧ b2.blockno = b.blockno ∧ b2.valid = b.valid ∧
      b2.data = b.data ∧
      (1 ≤ b.refcnt → b.refcnt < U32 → b2.refcnt = b.refcnt - 1) ∧
      (b.refcnt < U32 → (b2.refcnt = 0 ↔ b.refcnt = 1))) := by
  constructor
  · intro hf
    unfold brelse
    rw [if_pos hf]
  · intro ht
    unfold brelse
    rw [if_neg (by rw [ht]; simp)]
    split
    · rename_i hc
      refine ⟨_, rfl, rfl, rfl, fun _ => rfl, fun hn => absurd hc hn, rfl, rfl, rfl,
        rfl, ?_, ?_⟩
      · intro h1 h2
        have hc2 : (b.refcnt + (U32 - 1)) % U32 = 0 := hc
        simp only [U32] at hc2 h2 ⊢
        omega
      · intro h2
        have hc2 : (b.refcnt + (U32 - 1)) % U32 = 0 := hc
        simp only [U32] at hc2 h2 ⊢
        constructor
        · intro _
          omega
        · intro _
          exact hc2
    · rename_i hc
      refine ⟨_, rfl, rfl, rfl, fun h0 => absurd h0 hc, fun _ => rfl, rfl, rfl, rfl,
        rfl, ?_, ?_⟩
      · intro h1 h2
        have hc2 : ¬ (b.refcnt + (U32 - 1)) % U32 = 0 := hc
        simp only [U32] at hc2 h2 ⊢
        omega
      · intro h2
        have hc2 : ¬ (b.refcnt + (U32 - 1)) % U32 = 0 := hc
        simp only [U32] at hc2 h2 ⊢
        constructor
        · intro h0
          exact absurd h0 hc2
        · intro h1
          omega

/-- Witness for C8 at a concrete locked buffer with `refcnt = 1`. -/
theorem brelse_semantics_witness :
    (Buf.mk 2 3 true 1 0 true []).lockHeld = true ∧
    ∃ b2, brelse 42 (Buf.mk 2 3 true 1 0 true []) = some b2 ∧
      b2.lockHeld = false ∧
      b2.refcnt = ((Buf.mk 2 3 true 1 0 true []).refcnt + (U32 - 1)) % U32 ∧
      (b2.refcnt = 0 → b2.time = 42) ∧
      (¬ b2.refcnt = 0 → b2.time = (Buf.mk 2 3 true 1 0 true []).time) ∧
      b2.dev = 2 ∧ b2.blockno = 3 ∧ b2.valid = true ∧ b2.data = [] ∧
      (1 ≤ (Buf.mk 2 3 true 1 0 true []).refcnt →
        (Buf.mk 2 3 true 1 0 true []).refcnt < U32 →
        b2.refcnt = (Buf.mk 2 3 true 1 0 true []).refcnt - 1) ∧
      ((Buf.mk 2 3 true 1 0 true []).refcnt < U32 →
        (b2.refcnt = 0 ↔ (Buf.mk 2 3 true 1 0 true []).refcnt = 1)) :=
  ⟨rfl, (brelse_semantics 42 (Buf.mk 2 3 true 1 0 true [])).2 rfl⟩

/-- C9: `bwrite` and `brelse` called without the sleep lock fail
(`none`, the panic) without touching anything; with the lock held,
`bwrite` performs the device write of the current payload and leaves the
buffer — lock state, `refcnt` and all other fields — unchanged. -/
theorem lock_discipline_fatal (disk : Disk) (ticks : Nat) (b : Buf) :
    (b.lockHeld = false → bwrite disk b = none ∧ brelse ticks b = none) ∧
    (b.lockHeld = true →
      bwrite disk b = some (diskWrite disk b.dev b.blockno b.data, b)) := by
  constructor
  · intro hf
    constructor
    · unfold bwrite
      rw [if_pos hf]
    · unfold brelse
      rw [if_pos hf]
  · intro ht
    unfold bwrite
    rw [if_neg (by rw [ht]; simp)]

/-- Witness for C9: an unlocked buffer panics on both calls; a locked
one is written through unchanged. -/
theorem lock_discipline_fatal_witness :
    (bwrite [] (mkBuf 2 3 true 1 0) = none ∧ brelse 7 (mkBuf 2 3 true 1 0) = none) ∧
    bwrite [] (Buf.mk 2 3 true 1 0 true [5]) =
      some (diskWrite [] 2 3 [5], Buf.mk 2 3 true 1 0 true [5]) :=
  ⟨(lock_discipline_fatal [] 7 (mkBuf 2 3 true 1 0)).1 rfl,
   (lock_discipline_fatal [] 7 (Buf.mk 2 3 true 1 0 true [5])).2 rfl⟩

/-- C10: `bunpin` decrements `refcnt` without checking positivity; on a
buffer whose count is already 0 the `uint` arithmetic wraps the count to
`2^32 - 1`, a huge nonzero value, after which the buffer is invisible to
the eviction scan and can never be chosen by the move phase. -/
theorem bunpin_underflow_wraps (b : Buf) (h : b.refcnt = 0) :
    (bunpin b).refcnt = U32 - 1 ∧
    ¬ (bunpin b).refcnt = 0 ∧
    (∀ j : Nat, ∀ s : ScanSt, scanStepBuf j (bunpin b) s = s) ∧
    (∀ dev blockno m : Nat, movePhase dev blockno m [bunpin b] = none) := by
  have h1 : (bunpin b).refcnt = U32 - 1 := by
    unfold bunpin
    simp only [h, U32]
  have h2 : ¬ (bunpin b).refcnt = 0 := by
    rw [h1]
    simp [U32]
  refine ⟨h1, h2, ?_, ?_⟩
  · intro j s
    unfold scanStepBuf
    rw [if_neg fun hc => h2 hc.1]
  · intro dev blockno m
    apply (movePhase_none_iff dev blockno m [bunpin b]).mpr
    intro b2 hb2
    have hb2e : b2 = bunpin b := by simpa using hb2
    rw [hb2e]
    exact fun hc => h2 hc.1

/-- Witness for C10 at a concrete unreferenced buffer. -/
theorem bunpin_underflow_wraps_witness :
    (bunpin (mkBuf 1 1 true 0 0)).refcnt = U32 - 1 ∧
    ¬ (bunpin (mkBuf 1 1 true 0 0)).refcnt = 0 ∧
    (∀ j : Nat, ∀ s : ScanSt, scanStepBuf j (bunpin (mkBuf 1 1 true 0 0)) s = s) ∧
    (∀ dev blockno m : Nat, movePhase dev blockno m [bunpin (mkBuf 1 1 true 0 0)] = none) :=
  bunpin_underflow_wraps (mkBuf 1 1 true 0 0) rfl

/-! ### How many bucket locks the eviction scan holds -/

theorem scanStepBuf_midInv (bid j : Nat) (i0 : Option Nat) (b : Buf) (s : ScanSt)
    (hi0 : ∀ i, i0 = some i → ¬ i = j ∧ ¬ i = bid)
    (h : midInv bid j i0 s) : midInv bid j i0 (scanStepBuf j b s) := by
  unfold scanStepBuf
  by_cases hc : b.refcnt = 0 ∧ b.time < s.minTick
  · rw [if_pos hc]
    rcases h with ⟨hidx, hdet⟩ | ⟨hidx, hlocks⟩
    · rcases hdet with ⟨hn, hlocks⟩ | ⟨i, hsome, hlocks⟩
      · right
        refine ⟨rfl, ?_⟩
        show (match s.idx with
          | some i => if i ≠ j ∧ i ∈ s.locks then s.locks.erase i else s.locks
          | none => s.locks) = [j, bid]
        rw [hidx, hn]
        exact hlocks
      · right
        refine ⟨rfl, ?_⟩
        show (match s.idx with
          | some i2 => if i2 ≠ j ∧ i2 ∈ s.locks then s.locks.erase i2 else s.locks
          | none => s.locks) = [j, bid]
        rw [hidx, hsome]
        obtain ⟨hij, hib⟩ := hi0 i hsome
        have hmem : i ∈ s.locks := by
          rw [hlocks]
          simp
        show (if i ≠ j ∧ i ∈ s.locks then s.locks.erase i else s.locks) = [j, bid]
        rw [if_pos ⟨hij, hmem⟩, hlocks,
          List.erase_cons_tail (by simpa using fun he => hij he.symm),
          List.erase_cons_head]
    · right
      refine ⟨rfl, ?_⟩
      show (match s.idx with
        | some i2 => if i2 ≠ j ∧ i2 ∈ s.locks then s.locks.erase i2 else s.locks
        | none => s.locks) = [j, bid]
      rw [hidx]
      show (if j ≠ j ∧ j ∈ s.locks then s.locks.erase j else s.locks) = [j, bid]
      rw [if_neg fun hc2 => hc2.1 rfl]
      exact hlocks
  · rw [if_neg hc]
    exact h

theorem scanChain_midInv (bid j : Nat) (i0 : Option Nat) (c : List Buf) (s : ScanSt)
    (hi0 : ∀ i, i0 = some i → ¬ i = j ∧ ¬ i = bid)
    (h : midInv bid j i0 s) : midInv bid j i0 (scanChain j c s) := by
  induction c generalizing s with
  | nil => exact h
  | cons b rest ih => exact ih _ (scanStepBuf_midInv bid j i0 b s hi0 h)

theorem scanShard_boundaryInv (bid : Nat) (bk : List (List Buf)) (s : ScanSt)
    (j : Nat) (l : List Nat) (hjl : j ∉ l)
    (hinv : boundaryInv bid (j :: l) s) :
    boundaryInv bid l (scanShard bid bk s j) ∧
    (scanShard bid bk s j).maxHeld ≤ max s.maxHeld 3 := by
  by_cases hc : can_lock bid j = 0
  · have hsk : scanShard bid bk s j = s := by unfold scanShard; rw [if_pos hc]
    rw [hsk]
    refine ⟨?_, Nat.le_max_left _ _⟩
    rcases hinv with hA | ⟨i, h1, h2, h3, h4⟩
    · exact Or.inl hA
    · exact Or.inr ⟨i, h1, h2, h3, fun hm => h4 (List.mem_cons_of_mem j hm)⟩
  · have hj : ¬ j = bid := by
      intro he
      rw [he] at hc
      exact hc (can_lock_self bid)
    have hstep : scanShard bid bk s j =
        scanShardRelease j (scanChain j (bk.getD j []) (scanShardAcquire s j)) := by
      unfold scanShard
      rw [if_neg hc]
    have hlen2 : s.locks.length ≤ 2 := by
      rcases hinv with ⟨_, hl⟩ | ⟨i, _, hl, _, _⟩ <;> rw [hl] <;> simp
    have hmid : midInv bid j s.idx (scanShardAcquire s j) ∧
        (∀ i, s.idx = some i → ¬ i = j ∧ ¬ i = bid) := by
      rcases hinv with ⟨hn, hl⟩ | ⟨i, h1, h2, h3, h4⟩
      · refine ⟨Or.inl ⟨rfl, Or.inl ⟨hn, ?_⟩⟩, ?_⟩
        · show j :: s.locks = [j, bid]
          rw [hl]
        · intro i hi
          rw [hn] at hi
          cases hi
      · refine ⟨Or.inl ⟨rfl, Or.inr ⟨i, h1, ?_⟩⟩, ?_⟩
        · show j :: s.locks = [j, i, bid]
          rw [h2]
        · intro i2 hi2
          rw [h1] at hi2
          have : i = i2 := Option.some.inj hi2
          rw [← this]
          exact ⟨fun he => h4 (he ▸ List.mem_cons_self j l), h3⟩
    have hwalk := scanChain_midInv bid j s.idx (bk.getD j []) (scanShardAcquire s j)
      hmid.2 hmid.1
    have hmax2 : (scanShard bid bk s j).maxHeld ≤ max s.maxHeld 3 := by
      rw [scanShard_maxHeld, if_neg hc]
      have : (j :: s.locks).length ≤ 3 := by
        simp only [List.length_cons]
        omega
      exact max_le_max (Nat.le_refl _) this
    refine ⟨?_, hmax2⟩
    rw [hstep]
    unfold scanShardRelease
    rcases hwalk with ⟨hidx, hdet⟩ | ⟨hidx, hlocks⟩
    · rcases hdet with ⟨hn, hlocks⟩ | ⟨i, hsome, hlocks⟩
      · rw [if_pos ⟨by rw [hidx, hn]; exact Option.noConfusion,
          by rw [hlocks]; exact List.mem_cons_self j [bid]⟩]
        left
        refine ⟨by rw [hidx, hn], ?_⟩
        show (scanChain j (bk.getD j []) (scanShardAcquire s j)).locks.erase j = [bid]
        rw [hlocks, List.erase_cons_head]
      · obtain ⟨hij, hib⟩ := hmid.2 i hsome
        rw [if_pos ⟨by rw [hidx, hsome]; simp [hij],
          by rw [hlocks]; exact List.mem_cons_self j [i, bid]⟩]
        right
        refine ⟨i, by rw [hidx, hsome], ?_, hib, ?_⟩
        · show (scanChain j (bk.getD j []) (scanShardAcquire s j)).locks.erase j = [i, bid]
          rw [hlocks, List.erase_cons_head]
        · rcases hinv with ⟨hn2, _⟩ | ⟨i2, h1, _, _, h4⟩
          · rw [hn2] at hsome
            cases hsome
          · rw [h1] at hsome
            have : i2 = i := Option.some.inj hsome
            rw [← this]
            exact fun hm => h4 (List.mem_cons_of_mem j hm)
    · rw [if_neg fun hc2 => hc2.1 (by rw [hidx])]
      right
      exact ⟨j, hidx, hlocks, hj, hjl⟩

theorem foldl_scanShard_boundaryInv (bid : Nat) (bk : List (List Buf)) (l : List Nat)
    (s : ScanSt) (hnd : l.Nodup) (hinv : boundaryInv bid l s) (hmax : s.maxHeld ≤ 3) :
    boundaryInv bid [] (l.foldl (scanShard bid bk) s) ∧
    (l.foldl (scanShard bid bk) s).maxHeld ≤ 3 := by
  induction l generalizing s with
  | nil => exact ⟨hinv, hmax⟩
  | cons j rest ih =>
    simp only [List.foldl_cons]
    have hjl : j ∉ rest := (List.nodup_cons.mp hnd).1
    have hstep := scanShard_boundaryInv bid bk s j rest hjl hinv
    exact ih (scanShard bid bk s j) (List.nodup_cons.mp hnd).2 hstep.1
      (hstep.2.trans (max_le hmax (Nat.le_refl 3)))

/-- C4 (amended): during a single eviction scan the scanner holds at
most three bucket locks at any instant — the target shard's lock, held
from the top of `bget` through the whole scan, plus the scan cursor's
lock, plus the current best candidate's lock; superseded candidates'
locks are still released eagerly, and at the end of the scan at most two
locks (target + winning candidate) remain.  `maxHeld` is the high-water
mark of simultaneously held bucket locks. -/
theorem scan_holds_at_most_three_locks (bid : Nat) (bk : List (List Buf)) :
    (scanBuckets bid bk).maxHeld ≤ 3 ∧ (scanBuckets bid bk).locks.length ≤ 2 := by
  have h := foldl_scanShard_boundaryInv bid bk (List.range NBUCKET) (scanInit bid)
    (List.nodup_range NBUCKET) (Or.inl ⟨rfl, rfl⟩) (by show (1 : Nat) ≤ 3; decide)
  have hsb : scanBuckets bid bk =
      (List.range NBUCKET).foldl (scanShard bid bk) (scanInit bid) := rfl
  constructor
  · rw [hsb]
    exact h.2
  · rcases h.1 with ⟨_, hl⟩ | ⟨i, _, hl, _, _⟩ <;> rw [hsb, hl] <;> simp

/-- C4 counterexample: with target shard 0 on `cexBuckets1`, right after
the scanner acquires shard 8's lock it still holds shard 7's lock (the
current best candidate) and shard 0's lock (the target, held since the
top of `bget`): three bucket locks at one instant, not two. -/
theorem scan_reaches_three_locks :
    (scanBuckets 0 cexBuckets1).maxHeld = 3 ∧ ¬ (3 : Nat) ≤ 2 := by
  decide
